import Mathlib

/-
Verification development for the ResumeRAG backend (Python sources under
`backend/services/`).  Python text is modeled as `List Char`, Python floats
as real numbers (exact real arithmetic), Python ints as `Int`/`Nat`.
-/

set_option maxHeartbeats 2000000

/-! ## Python string primitives

Python `str` values are modeled as `List Char` (ASCII fragment: `str.lower`
is per-character `Char.toLower`, `\s` is the six ASCII whitespace
characters, `\w` is alphanumerics plus underscore). -/

/-- Python's `\s` class / `str.isspace` on the ASCII fragment. -/
def isSpaceChar (c : Char) : Bool :=
  c = ' ' || c = '\t' || c = '\n' || c = '\r' || c = '\x0b' || c = '\x0c'

/-- Python's `\w` class: alphanumerics and underscore. -/
def isWordChar (c : Char) : Bool :=
  c.isAlphanum || c = '_'

/-- Model of str.lower(): character-wise lowercasing. -/
def pyLower (s : List Char) : List Char :=
  s.map Char.toLower

/-- Whether `hay` begins with `needle`. -/
def startsSeq : List Char → List Char → Bool
  | [], _ => true
  | _ :: _, [] => false
  | a :: xs, b :: ys => a = b && startsSeq xs ys

/-- Python's substring test `needle in hay`. -/
def hasSub (needle : List Char) : List Char → Bool
  | [] => startsSeq needle []
  | c :: t => startsSeq needle (c :: t) || hasSub needle t

/-- Python's `hay.find(needle)`: index of the leftmost occurrence, as
`Option Nat` (`none` models `-1`). -/
def findSub (needle : List Char) : List Char → Option Nat
  | [] => if startsSeq needle [] then some 0 else none
  | c :: t =>
    if startsSeq needle (c :: t) then some 0
    else (findSub needle t).map (· + 1)

/-- Python's `str.split()` with no arguments: split on whitespace runs,
discarding empty pieces. -/
def splitWs (s : List Char) : List (List Char) :=
  (s.splitOnP isSpaceChar).filter (fun w => !w.isEmpty)

/-- Python's `str.strip()`: remove leading and trailing whitespace. -/
def pyStrip (s : List Char) : List Char :=
  ((s.dropWhile isSpaceChar).reverse.dropWhile isSpaceChar).reverse

/-- Python's slice `l[:k]` for an arbitrary (possibly negative) `k`. -/
def pySlice {α : Type} (k : Int) (l : List α) : List α :=
  if 0 ≤ k then l.take k.toNat else l.take ((l.length : Int) + k).toNat

/-- Model of int(s) on a string of decimal digits. -/
def digitsToNat (s : List Char) : Nat :=
  s.foldl (fun n c => 10 * n + (c.toNat - '0'.toNat)) 0

/-! ## A small backtracking regex engine

Faithful model of the fragment of Python `re` used by the repository:
character classes, concatenation, alternation (preferring the left branch),
greedy `*`/`+`/`?`/`{n}`/`{n,}`, and the word-boundary assertion `\b`.
Matching is leftmost, with Python's backtracking preference order
(greedy repetitions try the longer continuation first). -/

inductive RE where
  | eps : RE
  | cls : (Char → Bool) → RE
  | cat : RE → RE → RE
  | alt : RE → RE → RE
  | star : RE → RE
  | wordB : RE

def RE.size : RE → Nat
  | .eps => 1
  | .cls _ => 1
  | .wordB => 1
  | .cat r1 r2 => r1.size + r2.size + 1
  | .alt r1 r2 => r1.size + r2.size + 1
  | .star r => r.size + 1

/-- Optional `r` (greedy: try `r` first). -/
def RE.opt (r : RE) : RE := .alt r .eps

/-- One or more `r` (greedy). -/
def RE.plus (r : RE) : RE := .cat r (.star r)

/-- Exactly n copies of `r`. -/
def RE.rep (r : RE) : Nat → RE
  | 0 => .eps
  | n + 1 => .cat r (RE.rep r n)

/-- At least n copies of `r` (greedy). -/
def RE.atLeast (r : RE) (n : Nat) : RE := .cat (RE.rep r n) (.star r)

/-- A literal character. -/
def reLit (c : Char) : RE := .cls (fun x => x = c)

/-- A literal character under `re.IGNORECASE`. -/
def reLitCI (c : Char) : RE := .cls (fun x => x.toLower = c.toLower)

/-- Concatenation of a list of regexes. -/
def reSeq (rs : List RE) : RE := rs.foldr RE.cat RE.eps

/-- A case-insensitive literal string. -/
def reStrCI (s : String) : RE := reSeq (s.data.map reLitCI)

/-- Left-to-right alternation of a list of regexes (Python `a|b|c`). -/
def reAlts : List RE → RE
  | [] => .cls (fun _ => false)
  | [r] => r
  | r :: rs => .alt r (reAlts rs)

/-- The `\b` test between the previous character and the rest of the
input: true iff exactly one side is a word character. -/
def atBoundary (prev : Option Char) (s : List Char) : Bool :=
  (match prev with | none => false | some c => isWordChar c) !=
    (match s with | [] => false | c :: _ => isWordChar c)

/-- The backtracking matcher.  `reMatch fuel re prev s k` tries to match
`re` at the start of `s` (with `prev` the character just before `s`, for
`\b`) and calls the continuation `k` on every candidate split, in Python's
backtracking preference order, returning the first success.  `fuel` bounds
the recursion depth; every recursive call decreases it. -/
def reMatch : Nat → RE → Option Char → List Char →
    (Option Char → List Char → Option (List Char)) → Option (List Char)
  | 0, _, _, _, _ => none
  | fuel + 1, re, prev, s, k =>
    match re with
    | .eps => k prev s
    | .wordB => if atBoundary prev s then k prev s else none
    | .cls p =>
      match s with
      | [] => none
      | c :: rest => if p c then k (some c) rest else none
    | .cat r1 r2 => reMatch fuel r1 prev s (fun p2 s2 => reMatch fuel r2 p2 s2 k)
    | .alt r1 r2 =>
      match reMatch fuel r1 prev s k with
      | some res => some res
      | none => reMatch fuel r2 prev s k
    | .star r =>
      match reMatch fuel r prev s
          (fun p2 s2 =>
            if s2.length < s.length then reMatch fuel (.star r) p2 s2 k else none) with
      | some res => some res
      | none => k prev s

/-- Fuel that is ample for the patterns and inputs in this development. -/
def reFuel (re : RE) (s : List Char) : Nat := (re.size + 1) * (s.length + 2)

/-- Try to match `re` at the current position; on success return the
remaining suffix of the input. -/
def matchAt (re : RE) (prev : Option Char) (s : List Char) : Option (List Char) :=
  reMatch (reFuel re s) re prev s (fun _ rest => some rest)

/-- The last character of `l`, or the fallback `d` when `l` is empty. -/
def lastOr (l : List Char) (d : Option Char) : Option Char :=
  match l.getLast? with
  | some c => some c
  | none => d

/-- Worker for `pySub`: scan left to right, replacing every
(non-overlapping, leftmost) match by `repl`. -/
def subGo (re : RE) (repl : List Char) : Nat → Option Char → List Char → List Char
  | 0, _, s => s
  | f + 1, prev, s =>
    match matchAt re prev s with
    | none =>
      match s with
      | [] => []
      | c :: rest => c :: subGo re repl f (some c) rest
    | some rest =>
      if rest.length < s.length then
        repl ++ subGo re repl f (lastOr (s.take (s.length - rest.length)) prev) rest
      else
        repl ++
          (match s with
           | [] => []
           | c :: rest2 => c :: subGo re repl f (some c) rest2)

/-- Python's `re.sub(re, repl, s)`. -/
def pySub (re : RE) (repl : List Char) (s : List Char) : List Char :=
  subGo re repl (s.length + 1) none s

/-- Worker for `pySearch`. -/
def searchGo (re : RE) : Nat → Option Char → List Char → Bool
  | 0, _, _ => false
  | f + 1, prev, s =>
    (matchAt re prev s).isSome ||
      match s with
      | [] => false
      | c :: rest => searchGo re f (some c) rest

/-- Python's `re.search(re, s) is not None`. -/
def pySearch (re : RE) (s : List Char) : Bool :=
  searchGo re (s.length + 1) none s

/-- Worker for `pyFindAll`. -/
def findAllGo (re : RE) : Nat → Option Char → List Char → List (List Char)
  | 0, _, _ => []
  | f + 1, prev, s =>
    match matchAt re prev s with
    | none =>
      match s with
      | [] => []
      | c :: rest => findAllGo re f (some c) rest
    | some rest =>
      if rest.length < s.length then
        s.take (s.length - rest.length) ::
          findAllGo re f (lastOr (s.take (s.length - rest.length)) prev) rest
      else
        s.take 0 ::
          (match s with
           | [] => []
           | c :: rest2 => findAllGo re f (some c) rest2)

/-- Python's `re.findall(re, s)`, returning the full matched substrings. -/
def pyFindAll (re : RE) (s : List Char) : List (List Char) :=
  findAllGo re (s.length + 1) none s

lemma reMatch_eps (fuel : Nat) (prev : Option Char) (s : List Char)
    (k : Option Char → List Char → Option (List Char)) :
    reMatch (fuel + 1) .eps prev s k = k prev s := rfl

lemma reMatch_wordB (fuel : Nat) (prev : Option Char) (s : List Char)
    (k : Option Char → List Char → Option (List Char)) :
    reMatch (fuel + 1) .wordB prev s k =
      if atBoundary prev s then k prev s else none := rfl

lemma reMatch_cls (fuel : Nat) (p : Char → Bool) (prev : Option Char) (s : List Char)
    (k : Option Char → List Char → Option (List Char)) :
    reMatch (fuel + 1) (.cls p) prev s k =
      match s with
      | [] => none
      | c :: rest => if p c then k (some c) rest else none := rfl

lemma reMatch_cat (fuel : Nat) (r1 r2 : RE) (prev : Option Char) (s : List Char)
    (k : Option Char → List Char → Option (List Char)) :
    reMatch (fuel + 1) (.cat r1 r2) prev s k =
      reMatch fuel r1 prev s (fun p2 s2 => reMatch fuel r2 p2 s2 k) := rfl

lemma reMatch_alt (fuel : Nat) (r1 r2 : RE) (prev : Option Char) (s : List Char)
    (k : Option Char → List Char → Option (List Char)) :
    reMatch (fuel + 1) (.alt r1 r2) prev s k =
      match reMatch fuel r1 prev s k with
      | some res => some res
      | none => reMatch fuel r2 prev s k := rfl

lemma reMatch_star (fuel : Nat) (r : RE) (prev : Option Char) (s : List Char)
    (k : Option Char → List Char → Option (List Char)) :
    reMatch (fuel + 1) (.star r) prev s k =
      match reMatch fuel r prev s
          (fun p2 s2 =>
            if s2.length < s.length then reMatch fuel (.star r) p2 s2 k else none) with
      | some res => some res
      | none => k prev s := rfl

lemma subGo_succ (re : RE) (repl : List Char) (f : Nat) (prev : Option Char)
    (s : List Char) :
    subGo re repl (f + 1) prev s =
      match matchAt re prev s with
      | none =>
        match s with
        | [] => []
        | c :: rest => c :: subGo re repl f (some c) rest
      | some rest =>
        if rest.length < s.length then
          repl ++ subGo re repl f (lastOr (s.take (s.length - rest.length)) prev) rest
        else
          repl ++
            (match s with
             | [] => []
             | c :: rest2 => c :: subGo re repl f (some c) rest2) := rfl

lemma searchGo_succ (re : RE) (f : Nat) (prev : Option Char) (s : List Char) :
    searchGo re (f + 1) prev s =
      ((matchAt re prev s).isSome ||
        match s with
        | [] => false
        | c :: rest => searchGo re f (some c) rest) := rfl

/-- If a scan finds no match anywhere, substitution is the identity. -/
lemma subGo_eq_of_searchGo_false (re : RE) (repl : List Char) :
    ∀ (f : Nat) (prev : Option Char) (s : List Char),
      searchGo re f prev s = false → subGo re repl f prev s = s
  | 0, _, _, _ => rfl
  | f + 1, prev, s, h => by
    simp only [searchGo, Bool.or_eq_false_iff] at h
    obtain ⟨h1, h2⟩ := h
    have hnone : matchAt re prev s = none := Option.not_isSome_iff_eq_none.1 (by simp [h1])
    simp only [subGo, hnone]
    cases s with
    | nil => rfl
    | cons c rest =>
      show c :: subGo re repl f (some c) rest = c :: rest
      exact congrArg (c :: ·) (subGo_eq_of_searchGo_false re repl f (some c) rest h2)

/-- Substitution leaves a string unchanged when the search finds nothing. -/
lemma pySub_eq_of_pySearch_false (re : RE) (repl : List Char) (s : List Char)
    (h : pySearch re s = false) : pySub re repl s = s :=
  subGo_eq_of_searchGo_false re repl _ none s h

/-! ## PII service (`backend/services/pii_service.py`)

The eight patterns of `PIIService.__init__` (lines 8-17), applied by
`redact_pii` in dictionary insertion order with `re.IGNORECASE`. -/

/-- The class `[A-Za-z0-9._%+-]` (email local part). -/
def emailLocalChar (c : Char) : Bool :=
  c.isAlphanum || c = '.' || c = '_' || c = '%' || c = '+' || c = '-'

/-- The class `[A-Za-z0-9.-]` (email domain). -/
def emailDomainChar (c : Char) : Bool :=
  c.isAlphanum || c = '.' || c = '-'

/-- The class `[A-Z|a-z]` (email TLD; note it literally includes `|`). -/
def emailTldChar (c : Char) : Bool :=
  c.isAlpha || c = '|'

/-- Digit class, regex `\d` and `[0-9]`. -/
def digitCls : RE := .cls (fun c => c.isDigit)

/-- Whitespace class, regex `\s`. -/
def spaceCls : RE := .cls isSpaceChar

/-- The class `[-.\s]` (phone separators). -/
def phoneSepChar (c : Char) : Bool :=
  c = '-' || c = '.' || isSpaceChar c

/-- The class `[-\s]` (card separators). -/
def cardSepChar (c : Char) : Bool :=
  c = '-' || isSpaceChar c

/-- The class `[A-Za-z\s]` (address body). -/
def alphaSpaceChar (c : Char) : Bool :=
  c.isAlpha || isSpaceChar c

/-- The class `[a-zA-Z0-9-]` (URL host / profile handle). -/
def handleChar (c : Char) : Bool :=
  c.isAlphanum || c = '-'

/-- Pattern email, regex `\b[A-Za-z0-9._%+-]+@[A-Za-z0-9.-]+\.[A-Z|a-z]{2,}\b`. -/
def emailRE : RE := reSeq [.wordB, .plus (.cls emailLocalChar), reLit '@',
  .plus (.cls emailDomainChar), reLit '.', .atLeast (.cls emailTldChar) 2, .wordB]

/-- Pattern phone, regex `(\+?1[-.\s]?)?\(?([0-9]{3})\)?[-.\s]?([0-9]{3})[-.\s]?([0-9]{4})`. -/
def phoneRE : RE := reSeq [
  .opt (reSeq [.opt (reLit '+'), reLit '1', .opt (.cls phoneSepChar)]),
  .opt (reLit '('), RE.rep digitCls 3, .opt (reLit ')'), .opt (.cls phoneSepChar),
  RE.rep digitCls 3, .opt (.cls phoneSepChar), RE.rep digitCls 4]

/-- Pattern ssn, regex `\b\d{3}-?\d{2}-?\d{4}\b`. -/
def ssnRE : RE := reSeq [.wordB, RE.rep digitCls 3, .opt (reLit '-'),
  RE.rep digitCls 2, .opt (reLit '-'), RE.rep digitCls 4, .wordB]

/-- Pattern credit_card, regex `\b\d{4}[-\s]?\d{4}[-\s]?\d{4}[-\s]?\d{4}\b`. -/
def creditCardRE : RE := reSeq [.wordB, RE.rep digitCls 4, .opt (.cls cardSepChar),
  RE.rep digitCls 4, .opt (.cls cardSepChar), RE.rep digitCls 4,
  .opt (.cls cardSepChar), RE.rep digitCls 4, .wordB]

/-- Pattern address, regex
`\d+\s+[A-Za-z\s]+(?:Street|St|Avenue|Ave|Road|Rd|Boulevard|Blvd|Lane|Ln|Drive|Dr)`. -/
def addressRE : RE := reSeq [.plus digitCls, .plus spaceCls, .plus (.cls alphaSpaceChar),
  reAlts [reStrCI "Street", reStrCI "St", reStrCI "Avenue", reStrCI "Ave",
    reStrCI "Road", reStrCI "Rd", reStrCI "Boulevard", reStrCI "Blvd",
    reStrCI "Lane", reStrCI "Ln", reStrCI "Drive", reStrCI "Dr"]]

/-- Pattern linkedin, regex `linkedin\.com/in/[a-zA-Z0-9-]+`. -/
def linkedinRE : RE := reSeq [reStrCI "linkedin.com/in/", .plus (.cls handleChar)]

/-- Pattern github, regex `github\.com/[a-zA-Z0-9-]+`. -/
def githubRE : RE := reSeq [reStrCI "github.com/", .plus (.cls handleChar)]

/-- Pattern personal_website, regex
`https?://(?:www\.)?[a-zA-Z0-9-]+\.[a-zA-Z]{2,}(?:/[^\s]*)?`. -/
def websiteRE : RE := reSeq [reStrCI "http", .opt (reLitCI 's'), reStrCI "://",
  .opt (reStrCI "www."), .plus (.cls handleChar), reLit '.',
  .atLeast (.cls (fun c => c.isAlpha)) 2,
  .opt (reSeq [reLit '/', .star (.cls (fun c => !isSpaceChar c))])]

/-- The `pii_patterns`/`replacements` dictionaries of `PIIService.__init__`,
paired up in insertion order (the order `redact_pii` iterates in). -/
def piiPatterns : List (RE × List Char) := [
  (emailRE, "[EMAIL_REDACTED]".data),
  (phoneRE, "[PHONE_REDACTED]".data),
  (ssnRE, "[SSN_REDACTED]".data),
  (creditCardRE, "[CARD_REDACTED]".data),
  (addressRE, "[ADDRESS_REDACTED]".data),
  (linkedinRE, "[LINKEDIN_REDACTED]".data),
  (githubRE, "[GITHUB_REDACTED]".data),
  (websiteRE, "[WEBSITE_REDACTED]".data)]

/-- The `User` model, restricted to the field the PII service reads. -/
structure User where
  is_recruiter : Bool

/-- Model of PIIService.redact_pii (pii_service.py, lines 31-42): recruiters see
the text unchanged; otherwise each pattern is substituted in turn. -/
def redact_pii (text : List Char) (user : User) : List Char :=
  if user.is_recruiter then text
  else piiPatterns.foldl (fun t pr => pySub pr.1 pr.2 t) text

/-! ## Embedding service: vectors and cosine similarity
    (`backend/services/embedding_service.py`) -/

/-- Model of np.dot(emb1, emb2) for 1-D vectors (embedding_service.py, line 35):
the sum of the componentwise products.  (NumPy requires the two shapes to
agree; `zipWith` silently truncates to the shorter vector, which only makes
the theorems below strictly more general.) -/
def dotProduct (l1 l2 : List ℝ) : ℝ :=
  (List.zipWith (fun a b => a * b) l1 l2).sum

/-- Sum of the squares of the entries of a vector. -/
def sumSq (l : List ℝ) : ℝ :=
  (l.map (fun a => a ^ 2)).sum

/-- Model of np.linalg.norm(v) (embedding_service.py, lines 36-37): the Euclidean
norm, i.e. the square root of the sum of squares. -/
noncomputable def pyNorm (l : List ℝ) : ℝ :=
  Real.sqrt (sumSq l)

/-- Model of EmbeddingService.calculate_similarity (embedding_service.py,
lines 28-43): cosine similarity `dot / (norm1 * norm2)`, returning `0.0`
when either norm is zero. -/
noncomputable def calculate_similarity (embedding1 embedding2 : List ℝ) : ℝ :=
  if pyNorm embedding1 = 0 ∨ pyNorm embedding2 = 0 then 0
  else dotProduct embedding1 embedding2 / (pyNorm embedding1 * pyNorm embedding2)

lemma dotProduct_nil_left (l : List ℝ) : dotProduct [] l = 0 := by
  simp [dotProduct]

/-- Whitespace-run pattern, regex `\s+` (embedding_service.py line 67, matching_service.py line 124). -/
def wsRunRE : RE := .plus spaceCls

/-- The characters kept by the second step of _clean_text: `\w`, `\s` and the
punctuation `.,!?;:-` (the complement of the class `[^\w\s.,!?;:-]`). -/
def keepChar (c : Char) : Bool :=
  isWordChar c || isSpaceChar c ||
    c = '.' || c = ',' || c = '!' || c = '?' || c = ';' || c = ':' || c = '-'

/-- Stripping pattern, regex `[^\w\s.,!?;:-]` (embedding_service.py line 70). -/
def nonKeepRE : RE := .cls (fun c => !keepChar c)

/-- Joining of words with a single space (str.join). -/
def joinSpace : List (List Char) → List Char
  | [] => []
  | [w] => w
  | w :: ws => w ++ ' ' :: joinSpace ws

/-- Model of EmbeddingService._clean_text (embedding_service.py, lines 62-79):
collapse whitespace runs to one space, delete the characters outside
`[\w\s.,!?;:-]`, lowercase, then drop the tokens of length ≤ 2. -/
def clean_text (text : List Char) : List Char :=
  let t1 := pySub wsRunRE [' '] text
  let t2 := pySub nonKeepRE [] t1
  let t3 := pyLower t2
  joinSpace ((splitWs t3).filter (fun word => 2 < word.length))

/-- Python's stable `list.sort(key=score, reverse=True)`: a stable sort
into non-increasing `score` order (`reverse=True` flips the comparison but
keeps equal-key elements in their original relative order, exactly as a
stable merge sort with the flipped comparison does). -/
def pySortDesc {α β : Type} [LinearOrder β] (score : α → β) (l : List α) : List α :=
  l.mergeSort (fun a b => decide (score b ≤ score a))

/-- The field self.model.encode is the external sentence-transformer: an arbitrary
function from text to a vector, kept as a parameter `encode` throughout.
`EmbeddingService.generate_embeddings` (lines 11-20) cleans the text and
encodes it. -/
def generate_embeddings (encode : List Char → List ℝ) (text : List Char) : List ℝ :=
  encode (clean_text text)

/-- Python truthiness of an optional embedding list (`if resume.embeddings:`
or the corresponding dictionary test in find_similar_documents): present and
non-empty. -/
def truthyEmb : Option (List ℝ) → Bool
  | none => false
  | some l => !l.isEmpty

/-- One entry of the `similarities` list of `find_similar_documents`. -/
structure ScoredDoc (α : Type) where
  document : α
  similarity : ℝ

/-- The `similarities` list of `find_similar_documents` (embedding
_service.py, lines 47-55): every document carrying a truthy embedding is
scored, in input order. -/
noncomputable def simScored {α : Type} (emb : α → Option (List ℝ))
    (query_embedding : List ℝ) (document_embeddings : List α) : List (ScoredDoc α) :=
  document_embeddings.filterMap (fun doc =>
    if truthyEmb (emb doc) then
      some ⟨doc, calculate_similarity query_embedding ((emb doc).getD [])⟩
    else none)

/-- Model of EmbeddingService.find_similar_documents (embedding_service.py,
lines 45-60): score every document carrying a truthy embedding, sort by
similarity descending (stable), and truncate with `[:top_k]`. -/
noncomputable def find_similar_documents {α : Type} (emb : α → Option (List ℝ))
    (query_embedding : List ℝ) (document_embeddings : List α) (top_k : Int) :
    List (ScoredDoc α) :=
  pySlice top_k (pySortDesc ScoredDoc.similarity
    (simScored emb query_embedding document_embeddings))

lemma dotProduct_eq_sum_range (l1 l2 : List ℝ) :
    dotProduct l1 l2 =
      ∑ i in Finset.range (min l1.length l2.length), l1.getD i 0 * l2.getD i 0 := by
  induction l1 generalizing l2 with
  | nil => simp [dotProduct]
  | cons a t1 ih =>
    cases l2 with
    | nil => simp [dotProduct]
    | cons b t2 =>
      have hmin : min (t1.length + 1) (t2.length + 1) = min t1.length t2.length + 1 := by
        omega
      simp only [dotProduct, List.zipWith_cons_cons, List.sum_cons, List.length_cons, hmin,
        Finset.sum_range_succ']
      simp only [List.getD_cons_succ, List.getD_cons_zero]
      rw [← dotProduct, ih]
      ring

lemma sumSq_eq_sum_range (l : List ℝ) :
    sumSq l = ∑ i in Finset.range l.length, l.getD i 0 ^ 2 := by
  induction l with
  | nil => simp [sumSq]
  | cons a t ih =>
    simp only [sumSq, List.map_cons, List.sum_cons, List.length_cons, Finset.sum_range_succ']
    simp only [List.getD_cons_succ, List.getD_cons_zero]
    rw [← sumSq, ih]
    ring

lemma sumSq_nonneg (l : List ℝ) : 0 ≤ sumSq l := by
  rw [sumSq_eq_sum_range]
  exact Finset.sum_nonneg fun i _ => sq_nonneg _

lemma sum_range_sq_le_sumSq (l : List ℝ) (n : ℕ) (h : n ≤ l.length) :
    ∑ i in Finset.range n, l.getD i 0 ^ 2 ≤ sumSq l := by
  rw [sumSq_eq_sum_range]
  exact Finset.sum_le_sum_of_subset_of_nonneg (Finset.range_subset.2 h)
    (fun i _ _ => sq_nonneg _)

lemma pyNorm_nonneg (l : List ℝ) : 0 ≤ pyNorm l := Real.sqrt_nonneg _

/-- Cauchy-Schwarz for the list dot product: the dot product is at most the
product of the Euclidean norms. -/
lemma dotProduct_le_norm_mul_norm (l1 l2 : List ℝ) :
    dotProduct l1 l2 ≤ pyNorm l1 * pyNorm l2 := by
  rw [dotProduct_eq_sum_range]
  calc ∑ i in Finset.range (min l1.length l2.length), l1.getD i 0 * l2.getD i 0
      ≤ Real.sqrt (∑ i in Finset.range (min l1.length l2.length), l1.getD i 0 ^ 2) *
        Real.sqrt (∑ i in Finset.range (min l1.length l2.length), l2.getD i 0 ^ 2) :=
        Real.sum_mul_le_sqrt_mul_sqrt _ _ _
    _ ≤ pyNorm l1 * pyNorm l2 := by
        apply mul_le_mul
        · exact Real.sqrt_le_sqrt (sum_range_sq_le_sumSq _ _ (min_le_left _ _))
        · exact Real.sqrt_le_sqrt (sum_range_sq_le_sumSq _ _ (min_le_right _ _))
        · exact Real.sqrt_nonneg _
        · exact Real.sqrt_nonneg _

lemma dotProduct_map_neg (l1 l2 : List ℝ) :
    dotProduct (l1.map (fun a => -a)) l2 = -dotProduct l1 l2 := by
  induction l1 generalizing l2 with
  | nil => simp [dotProduct]
  | cons a t ih =>
    cases l2 with
    | nil => simp [dotProduct]
    | cons b t2 =>
      simp only [List.map_cons, dotProduct, List.zipWith_cons_cons, List.sum_cons]
      rw [← dotProduct, ← dotProduct, ih]
      ring

lemma sumSq_map_neg (l : List ℝ) : sumSq (l.map (fun a => -a)) = sumSq l := by
  unfold sumSq
  induction l with
  | nil => simp
  | cons a t ih => simp only [List.map_cons, List.sum_cons, ih]; ring

lemma neg_norm_mul_norm_le_dotProduct (l1 l2 : List ℝ) :
    -(pyNorm l1 * pyNorm l2) ≤ dotProduct l1 l2 := by
  have h := dotProduct_le_norm_mul_norm (l1.map (fun a => -a)) l2
  have hnorm : pyNorm (l1.map (fun a => -a)) = pyNorm l1 := by
    unfold pyNorm
    rw [sumSq_map_neg]
  rw [dotProduct_map_neg, hnorm] at h
  linarith

/-- Cosine similarity always lies in `[-1, 1]`. -/
lemma calculate_similarity_mem_Icc (e1 e2 : List ℝ) :
    -1 ≤ calculate_similarity e1 e2 ∧ calculate_similarity e1 e2 ≤ 1 := by
  unfold calculate_similarity
  by_cases h : pyNorm e1 = 0 ∨ pyNorm e2 = 0
  · rw [if_pos h]
    norm_num
  · push_neg at h
    obtain ⟨h1, h2⟩ := h
    have p1 : 0 < pyNorm e1 := lt_of_le_of_ne (pyNorm_nonneg _) (Ne.symm h1)
    have p2 : 0 < pyNorm e2 := lt_of_le_of_ne (pyNorm_nonneg _) (Ne.symm h2)
    have ppos : 0 < pyNorm e1 * pyNorm e2 := mul_pos p1 p2
    rw [if_neg (by push_neg; exact ⟨h1, h2⟩)]
    constructor
    · rw [neg_le, ← neg_div]
      apply div_le_one_of_le₀ _ ppos.le
      have := neg_norm_mul_norm_le_dotProduct e1 e2
      linarith
    · exact div_le_one_of_le₀ (dotProduct_le_norm_mul_norm e1 e2) ppos.le

/-! ## Matching service (`backend/services/matching_service.py`) -/

/-- The `Job` model, restricted to the fields the matching service reads. -/
structure Job where
  title : List Char
  description : List Char
  requirements : List (List Char)

/-- The `Resume` model, restricted to the fields the services read. -/
structure Resume where
  id : Nat
  original_filename : List Char
  content : List Char
  embeddings : Option (List ℝ)

/-- One evidence dictionary, with keys requirement, evidence and type. -/
structure EvidenceItem where
  requirement : List Char
  evidence : List Char
  type : String

/-- Model of MatchingService._find_context (matching_service.py, lines 110-126):
the window of 100 characters before and after the first occurrence of
`term` in `content.lower()`, whitespace-collapsed and stripped. -/
def find_context (term : List Char) (content : List Char) : List Char :=
  match findSub term (pyLower content) with
  | none => []
  | some pos =>
    let start := pos - 100
    let stop := min content.length (pos + term.length + 100)
    pyStrip (pySub wsRunRE [' '] ((content.take stop).drop start))

/-- Model of MatchingService._has_similar_term (matching_service.py, lines
128-138): some whitespace token of the requirement longer than 3
characters occurs in the content. -/
def has_similar_term (requirement content : List Char) : Bool :=
  (splitWs requirement).any (fun word => 3 < word.length && hasSub word content)

/-- The requirement loop of `MatchingService._extract_evidence`
(matching_service.py, lines 63-78): a `skill_match` item for every
requirement whose lowercase form occurs in the lowercase resume content. -/
def extract_evidence_skill (job : Job) (resume : Resume) : List EvidenceItem :=
  job.requirements.filterMap (fun requirement =>
    if hasSub (pyLower requirement) (pyLower resume.content) then
      some ⟨requirement, find_context (pyLower requirement) resume.content, "skill_match"⟩
    else none)

/-- Years-of-experience pattern, regex `(\d+)\s*years?\s*(?:of\s*)?experience`
(matching_service.py, line 149).  Case-sensitive literals: the code
applies it to already lowercased text. -/
def reStr (s : String) : RE := reSeq (s.data.map reLit)

def yearsRE : RE := reSeq [.plus digitCls, .star spaceCls, reStr "year",
  .opt (reLit 's'), .star spaceCls, .opt (reSeq [reStr "of", .star spaceCls]),
  reStr "experience"]

/-- Model of re.findall(years_pattern, text): it returns capture group 1, the `(\d+)`
at the start of each match: the greedy leading digit run of the match. -/
def yearsMatches (text : List Char) : List (List Char) :=
  (pyFindAll yearsRE text).map (fun m => m.takeWhile (fun c => c.isDigit))

/-- Model of MatchingService._check_experience_match (matching_service.py,
lines 140-167). -/
def check_experience_match (job : Job) (resume : Resume) : List EvidenceItem :=
  match yearsMatches (pyLower job.description) with
  | [] => []
  | jy :: _ =>
    match yearsMatches (pyLower resume.content) with
    | [] => []
    | ry :: _ =>
      if digitsToNat jy ≤ digitsToNat ry then
        [⟨(toString (digitsToNat jy)).data ++ " years of experience".data,
          "Candidate has ".data ++ (toString (digitsToNat ry)).data ++
            " years of experience".data,
          "experience_match"⟩]
      else []

/-- The fixed `education_terms` list (matching_service.py, line 178). -/
def education_terms : List (List Char) :=
  ["bachelor".data, "master".data, "phd".data, "degree".data,
   "university".data, "college".data]

/-- Model of MatchingService._check_education_match (matching_service.py,
lines 169-190). -/
def check_education_match (job : Job) (resume : Resume) : List EvidenceItem :=
  education_terms.filterMap (fun term =>
    if hasSub term (pyLower job.description) && hasSub term (pyLower resume.content) then
      some ⟨"Education: ".data ++ term, find_context term resume.content,
        "education_match"⟩
    else none)

/-- Model of MatchingService._extract_evidence (matching_service.py, lines 59-90):
skill matches, then experience evidence, then education evidence. -/
def extract_evidence (job : Job) (resume : Resume) : List EvidenceItem :=
  extract_evidence_skill job resume ++ check_experience_match job resume ++
    check_education_match job resume

/-- Model of MatchingService._find_missing_requirements (matching_service.py,
lines 92-108): the requirements that occur neither verbatim nor through a
similar term. -/
def find_missing_requirements (job : Job) (resume : Resume) : List (List Char) :=
  job.requirements.filter (fun requirement =>
    !hasSub (pyLower requirement) (pyLower resume.content) &&
      !has_similar_term (pyLower requirement) (pyLower resume.content))

/-- One entry of the `matches` list of `match_candidates`. -/
structure MatchEntry where
  resume_id : Nat
  filename : List Char
  score : ℝ
  evidence : List EvidenceItem
  missing_requirements : List (List Char)

/-- The scoring loop of `MatchingService.match_candidates`
(matching_service.py, lines 26-49): the composite job text is embedded,
and every resume with a truthy `embeddings` field is scored, in corpus
order. -/
noncomputable def scoredMatches (encode : List Char → List ℝ) (job : Job)
    (resumes : List Resume) : List MatchEntry :=
  let job_text := job.title ++ [' '] ++ job.description ++ [' '] ++
    joinSpace job.requirements
  let job_embedding := generate_embeddings encode job_text
  resumes.filterMap (fun resume =>
    if truthyEmb resume.embeddings then
      some ⟨resume.id, resume.original_filename,
        calculate_similarity job_embedding (resume.embeddings.getD []),
        extract_evidence job resume,
        find_missing_requirements job resume⟩
    else none)

/-- Model of MatchingService.match_candidates (matching_service.py, lines 13-57),
after the job and the owner's resumes have been fetched: score, sort
descending by score (stable `list.sort`), truncate with `[:top_n]`. -/
noncomputable def match_candidates (encode : List Char → List ℝ) (job : Job)
    (resumes : List Resume) (top_n : Int) : List MatchEntry :=
  pySlice top_n (pySortDesc MatchEntry.score (scoredMatches encode job resumes))

/-! ## Simple RAG service (`backend/services/simple_rag_service.py`) -/

/-- The word-count score of `ask_question`'s loop (lines 30-36): how many
entries of `query_words` occur in the lowercased content (duplicates in
`query_words` are counted again). -/
def query_score (query_words : List (List Char)) (content : List Char) : Nat :=
  (query_words.filter (fun word => hasSub word (pyLower content))).length

/-- One entry of the `relevant_resumes` list. -/
structure RelevantResume where
  resume : Resume
  score : Nat

/-- The `relevant_resumes` list (lines 28-42): the resumes with a strictly
positive score, in corpus order. -/
def relevantResumes (query : List Char) (resumes : List Resume) : List RelevantResume :=
  let query_words := splitWs (pyLower query)
  resumes.filterMap (fun resume =>
    let score := query_score query_words resume.content
    if 0 < score then some ⟨resume, score⟩ else none)

/-- The sorted relevant resumes (stable descending sort) followed by `[:k]`
(lines 44-48). -/
def topResumes (query : List Char) (k : Int) (resumes : List Resume) :
    List RelevantResume :=
  pySlice k (pySortDesc RelevantResume.score (relevantResumes query resumes))

/-- Sentence separators, the class `[.!?]` used by the sentence splitter. -/
def isSentSep (c : Char) : Bool :=
  c = '.' || c = '!' || c = '?'

/-- Worker for `splitPunct`. -/
def splitPunctGo : Nat → List Char → List (List Char)
  | 0, s => [s]
  | f + 1, s =>
    let pre := s.takeWhile (fun c => !isSentSep c)
    match s.dropWhile (fun c => !isSentSep c) with
    | [] => [pre]
    | _ :: t => pre :: splitPunctGo f (t.dropWhile isSentSep)

/-- Model of re.split on the class `[.!?]+`: split on maximal runs of the
sentence separators (keeping empty pieces at the ends, as re.split does). -/
def splitPunct (s : List Char) : List (List Char) :=
  splitPunctGo (s.length + 1) s

/-- Model of SimpleRAGService._extract_snippets (simple_rag_service.py, lines
227-242; `RAGService._extract_relevant_snippets`, rag_service.py lines
220-235, is textually identical): for each sentence containing a query
word, strip it and truncate to 200 characters, keep it if strictly longer
than 50, and return the first 3. -/
def extract_snippets (query content : List Char) : List (List Char) :=
  let query_words := splitWs (pyLower query)
  ((splitPunct content).filterMap (fun sentence =>
    if query_words.any (fun word => hasSub word (pyLower sentence)) then
      let snippet := (pyStrip sentence).take 200
      if 50 < snippet.length then some snippet else none
    else none)).take 3

/-- One entry of the `sources` list of `ask_question`. -/
structure SourceEntry where
  resume_id : Nat
  filename : List Char
  similarity_score : ℚ
  snippets : List (List Char)

/-- The `sources` list of `SimpleRAGService.ask_question` (lines 53-67):
each top resume with its normalized score `score / len(query_words)`. -/
def ask_sources (query : List Char) (k : Int) (resumes : List Resume) :
    List SourceEntry :=
  let query_words := splitWs (pyLower query)
  (topResumes query k resumes).map (fun item =>
    ⟨item.resume.id, item.resume.original_filename,
      (item.score : ℚ) / (query_words.length : ℚ),
      extract_snippets query item.resume.content⟩)

/-! ## Resume service (`backend/services/resume_service.py`) -/

/-- The record constructed by `ResumeService.upload_resume`
(resume_service.py, lines 42-56): the `embeddings` column is hard-coded to
`None` (line 43, "simplified for demo"). -/
def uploadResumeRecord (rid : Nat) (original_filename content : List Char) : Resume :=
  { id := rid
    original_filename := original_filename
    content := content
    embeddings := none }

/-! ## Generic facts about the ranking step (`pySortDesc` + `pySlice`) -/

lemma pySlice_sublist {α : Type} (k : Int) (l : List α) : List.Sublist (pySlice k l) l := by
  unfold pySlice
  split
  · exact List.take_sublist _ _
  · exact List.take_sublist _ _

lemma pySortDesc_pairwise {α β : Type} [LinearOrder β] (score : α → β) (l : List α) :
    (pySortDesc score l).Pairwise (fun a b => score b ≤ score a) := by
  have h := @List.sorted_mergeSort α (fun a b => decide (score b ≤ score a))
    (fun a b c hab hbc => by
      simp only [decide_eq_true_eq] at *
      exact le_trans hbc hab)
    (fun a b => by
      simp only [Bool.or_eq_true, decide_eq_true_eq]
      exact le_total (score b) (score a))
    l
  exact h.imp (fun hab => of_decide_eq_true hab)

lemma pySortDesc_perm {α β : Type} [LinearOrder β] (score : α → β) (l : List α) :
    List.Perm (pySortDesc score l) l :=
  List.mergeSort_perm l _

/-- Stability of the sort: the elements whose score satisfies a
score-determined predicate appear in the sorted list exactly as they do in
the input. -/
lemma pySortDesc_filter_eq {α β : Type} [LinearOrder β] (score : α → β) (l : List α)
    (p : α → Bool) (hp : ∀ a b, p a = true → p b = true → score a = score b) :
    (pySortDesc score l).filter p = l.filter p := by
  have trans : ∀ a b c : α, decide (score b ≤ score a) → decide (score c ≤ score b) →
      decide (score c ≤ score a) := fun a b c hab hbc => by
    simp only [decide_eq_true_eq] at *
    exact le_trans hbc hab
  have total : ∀ a b : α, decide (score b ≤ score a) || decide (score a ≤ score b) :=
    fun a b => by
      simp only [Bool.or_eq_true, decide_eq_true_eq]
      exact le_total (score b) (score a)
  have hc : (l.filter p).Pairwise (fun a b => decide (score b ≤ score a) = true) := by
    apply List.pairwise_of_forall_mem_list
    intro a ha b hb
    have hpa := (List.mem_filter.1 ha).2
    have hpb := (List.mem_filter.1 hb).2
    simp only [decide_eq_true_eq]
    exact le_of_eq (hp b a hpb hpa)
  have hsub : List.Sublist (l.filter p) (pySortDesc score l) :=
    List.sublist_mergeSort trans total hc (List.filter_sublist l)
  have h1 : List.Sublist ((l.filter p).filter p) ((pySortDesc score l).filter p) :=
    hsub.filter p
  rw [List.filter_filter] at h1
  have h2 : List.Perm ((pySortDesc score l).filter p) (l.filter p) :=
    (pySortDesc_perm score l).filter p
  have hlen : ((l.filter (fun a => p a && p a)).length = ((pySortDesc score l).filter p).length) := by
    rw [h2.length_eq]
    congr 1
    apply List.filter_congr
    intro a _
    cases hpa : p a <;> simp [hpa]
  have := h1.eq_of_length hlen
  rw [← this]
  apply List.filter_congr
  intro a _
  cases hpa : p a <;> simp [hpa]

/-! ## Engine lemmas used by the text-cleaning proofs -/

/-- Every continuation invocation made by `reMatch` receives a suffix of
the input. -/
lemma reMatch_suffix :
    ∀ (fuel : Nat) (re : RE) (prev : Option Char) (s : List Char)
      (k : Option Char → List Char → Option (List Char)) (res : List Char),
      reMatch fuel re prev s k = some res →
      ∃ p2 s2, s2.IsSuffix s ∧ k p2 s2 = some res := by
  intro fuel
  induction fuel with
  | zero => intro re prev s k res h; simp [reMatch] at h
  | succ fuel ih =>
    intro re prev s k res h
    cases re with
    | eps => exact ⟨prev, s, List.suffix_refl s, h⟩
    | wordB =>
      rw [reMatch_wordB] at h
      split at h
      · exact ⟨prev, s, List.suffix_refl s, h⟩
      · exact absurd h (by simp)
    | cls p =>
      rw [reMatch_cls] at h
      cases s with
      | nil => exact absurd h (by simp)
      | cons c rest =>
        simp only at h
        split at h
        · exact ⟨some c, rest, List.suffix_cons c rest, h⟩
        · exact absurd h (by simp)
    | cat r1 r2 =>
      rw [reMatch_cat] at h
      obtain ⟨p2, s2, hs2, h2⟩ := ih r1 prev s _ res h
      obtain ⟨p3, s3, hs3, h3⟩ := ih r2 p2 s2 k res h2
      exact ⟨p3, s3, hs3.trans hs2, h3⟩
    | alt r1 r2 =>
      rw [reMatch_alt] at h
      cases h1 : reMatch fuel r1 prev s k with
      | some res1 =>
        rw [h1] at h
        cases h
        exact ih r1 prev s k res h1
      | none =>
        rw [h1] at h
        exact ih r2 prev s k res h
    | star r =>
      rw [reMatch_star] at h
      cases h1 : reMatch fuel r prev s
          (fun p2 s2 =>
            if s2.length < s.length then reMatch fuel (.star r) p2 s2 k else none) with
      | some res1 =>
        rw [h1] at h
        cases h
        obtain ⟨p2, s2, hs2, h2⟩ := ih r prev s _ res h1
        by_cases hlt : s2.length < s.length
        · rw [if_pos hlt] at h2
          obtain ⟨p3, s3, hs3, h3⟩ := ih (.star r) p2 s2 k res h2
          exact ⟨p3, s3, hs3.trans hs2, h3⟩
        · rw [if_neg hlt] at h2
          exact absurd h2 (by simp)
      | none =>
        rw [h1] at h
        exact ⟨prev, s, List.suffix_refl s, h⟩

/-- The remainder returned by `matchAt` is a suffix of the input. -/
lemma matchAt_suffix {re : RE} {prev : Option Char} {s rest : List Char}
    (h : matchAt re prev s = some rest) : rest.IsSuffix s := by
  obtain ⟨p2, s2, hs2, h2⟩ := reMatch_suffix _ re prev s _ rest h
  cases h2
  exact hs2

/-- Every character produced by `subGo` comes from the replacement string
or from the input. -/
lemma mem_subGo {re : RE} {repl : List Char} {c : Char} :
    ∀ (f : Nat) (prev : Option Char) (s : List Char),
      c ∈ subGo re repl f prev s → c ∈ repl ∨ c ∈ s := by
  intro f
  induction f with
  | zero => intro prev s h; exact Or.inr h
  | succ f ih =>
    intro prev s h
    cases hm : matchAt re prev s with
    | none =>
      simp only [subGo_succ, hm] at h
      cases s with
      | nil => exact absurd h (by simp)
      | cons c0 rest =>
        simp only [List.mem_cons] at h
        rcases h with h | h
        · exact Or.inr (h ▸ List.mem_cons_self c0 rest)
        · rcases ih (some c0) rest h with h2 | h2
          · exact Or.inl h2
          · exact Or.inr (List.mem_cons_of_mem c0 h2)
    | some rest =>
      simp only [subGo_succ, hm] at h
      have hsuf : rest.IsSuffix s := matchAt_suffix hm
      by_cases hlt : rest.length < s.length
      · rw [if_pos hlt] at h
        rcases List.mem_append.1 h with h2 | h2
        · exact Or.inl h2
        · rcases ih _ rest h2 with h3 | h3
          · exact Or.inl h3
          · exact Or.inr (hsuf.sublist.subset h3)
      · rw [if_neg hlt] at h
        rcases List.mem_append.1 h with h2 | h2
        · exact Or.inl h2
        · cases s with
          | nil => exact absurd h2 (by simp)
          | cons c0 rest2 =>
            simp only [List.mem_cons] at h2
            rcases h2 with h2 | h2
            · exact Or.inr (h2 ▸ List.mem_cons_self c0 rest2)
            · rcases ih (some c0) rest2 h2 with h3 | h3
              · exact Or.inl h3
              · exact Or.inr (List.mem_cons_of_mem c0 h3)

/-- Every character produced by `pySub` comes from the replacement string
or from the input. -/
lemma mem_pySub {re : RE} {repl s : List Char} {c : Char}
    (h : c ∈ pySub re repl s) : c ∈ repl ∨ c ∈ s :=
  mem_subGo _ none s h

/-- Evaluation of `matchAt` on a single-character class. -/
lemma matchAt_cls (p : Char → Bool) (prev : Option Char) (s : List Char) :
    matchAt (.cls p) prev s =
      match s with
      | [] => none
      | c :: rest => if p c then some rest else none := by
  have hfuel : reFuel (.cls p) s = (2 * s.length + 3) + 1 := by
    simp [reFuel, RE.size]; ring
  rw [matchAt, hfuel, reMatch_cls]

/-- Substituting the empty string for a single-character class deletes
exactly the characters of the class: re.sub of a one-character class with
the empty replacement equals filtering those characters out. -/
lemma pySub_cls_nil_eq_filter (p : Char → Bool) :
    ∀ (f : Nat) (prev : Option Char) (s : List Char), s.length < f →
      subGo (.cls p) [] f prev s = s.filter (fun c => !p c) := by
  intro f
  induction f with
  | zero => intro prev s h; omega
  | succ f ih =>
    intro prev s hlen
    cases s with
    | nil => rfl
    | cons c rest =>
      simp only [List.length_cons] at hlen
      by_cases hc : p c
      · have hm : matchAt (.cls p) prev (c :: rest) = some rest := by
          rw [matchAt_cls]
          simp [hc]
        simp only [subGo_succ, hm, List.length_cons, List.nil_append]
        rw [if_pos (Nat.lt_succ_self rest.length), ih _ rest (by omega),
          List.filter_cons, if_neg (by simp [hc])]
      · have hm : matchAt (.cls p) prev (c :: rest) = none := by
          rw [matchAt_cls]
          simp [hc]
        simp only [subGo_succ, hm]
        rw [ih (some c) rest (by omega), List.filter_cons, if_pos (by simp [hc])]

/-! ## Character and splitting lemmas for the text normalizer -/

/-- Lowercasing maps the kept character class into itself (an uppercase
letter becomes a lowercase letter; every other character is unchanged). -/
lemma keepChar_toLower {c : Char} (h : keepChar c = true) :
    keepChar c.toLower = true := by
  have key : ∀ n, n < 91 → 65 ≤ n → keepChar (Char.ofNat (n + 32)) = true := by decide
  show keepChar (if c.toNat ≥ 65 ∧ c.toNat ≤ 90 then Char.ofNat (c.toNat + 32) else c) = true
  split
  · rename_i hn
    exact key c.toNat (by omega) (by omega)
  · exact h

lemma isSpaceChar_toLower (c : Char) : isSpaceChar c.toLower = isSpaceChar c := by
  have key : ∀ n, n < 91 → 65 ≤ n → isSpaceChar (Char.ofNat (n + 32)) = false := by decide
  have key2 : ∀ c : Char, isSpaceChar c = true → c.toNat < 65 := by
    intro c hc
    simp only [isSpaceChar, Bool.or_eq_true, decide_eq_true_eq] at hc
    rcases hc with ((((h | h) | h) | h) | h) | h <;> subst h <;> decide
  show isSpaceChar (if c.toNat ≥ 65 ∧ c.toNat ≤ 90 then Char.ofNat (c.toNat + 32) else c) =
    isSpaceChar c
  split
  · rename_i hn
    rw [key c.toNat (by omega) (by omega)]
    rcases hsp : isSpaceChar c with _ | _
    · rfl
    · have := key2 c hsp
      omega
  · rfl

/-- The characters of a `splitOnP` piece are characters of the input. -/
lemma mem_of_mem_splitOnP {p : Char → Bool} :
    ∀ {l w : List Char}, w ∈ l.splitOnP p → ∀ {c : Char}, c ∈ w → c ∈ l := by
  intro l
  induction l with
  | nil =>
    intro w hw c hc
    rw [List.splitOnP_nil] at hw
    simp only [List.mem_singleton] at hw
    subst hw
    exact absurd hc (by simp)
  | cons x xs ih =>
    intro w hw c hc
    rw [List.splitOnP_cons] at hw
    by_cases hx : p x
    · rw [if_pos hx] at hw
      simp only [List.mem_cons] at hw
      rcases hw with hw | hw
      · subst hw
        exact absurd hc (by simp)
      · exact List.mem_cons_of_mem x (ih hw hc)
    · rw [if_neg hx] at hw
      cases hsplit : xs.splitOnP p with
      | nil => exact absurd hsplit (List.splitOnP_ne_nil p xs)
      | cons w0 ws =>
        rw [hsplit] at hw
        simp only [List.modifyHead, List.mem_cons] at hw
        rcases hw with hw | hw
        · subst hw
          simp only [List.mem_cons] at hc
          rcases hc with hc | hc
          · exact hc ▸ List.mem_cons_self x xs
          · exact List.mem_cons_of_mem x (ih (hsplit ▸ List.mem_cons_self w0 ws) hc)
        · exact List.mem_cons_of_mem x
            (ih (hsplit ▸ List.mem_cons_of_mem w0 hw) hc)

/-- No character of a `splitOnP` piece satisfies the split predicate. -/
lemma not_p_of_mem_splitOnP {p : Char → Bool} :
    ∀ {l w : List Char}, w ∈ l.splitOnP p → ∀ {c : Char}, c ∈ w → p c = false := by
  intro l
  induction l with
  | nil =>
    intro w hw c hc
    rw [List.splitOnP_nil] at hw
    simp only [List.mem_singleton] at hw
    subst hw
    exact absurd hc (by simp)
  | cons x xs ih =>
    intro w hw c hc
    rw [List.splitOnP_cons] at hw
    by_cases hx : p x
    · rw [if_pos hx] at hw
      simp only [List.mem_cons] at hw
      rcases hw with hw | hw
      · subst hw
        exact absurd hc (by simp)
      · exact ih hw hc
    · rw [if_neg hx] at hw
      cases hsplit : xs.splitOnP p with
      | nil => exact absurd hsplit (List.splitOnP_ne_nil p xs)
      | cons w0 ws =>
        rw [hsplit] at hw
        simp only [List.modifyHead, List.mem_cons] at hw
        rcases hw with hw | hw
        · subst hw
          simp only [List.mem_cons] at hc
          rcases hc with hc | hc
          · subst hc
            exact Bool.eq_false_iff.2 hx
          · exact ih (hsplit ▸ List.mem_cons_self w0 ws) hc
        · exact ih (hsplit ▸ List.mem_cons_of_mem w0 hw) hc

/-- Characters of a `splitWs` word are non-whitespace characters of the
input. -/
lemma mem_splitWs_subset {s w : List Char} (hw : w ∈ splitWs s) {c : Char}
    (hc : c ∈ w) : c ∈ s ∧ isSpaceChar c = false := by
  have hw2 : w ∈ s.splitOnP isSpaceChar := (List.mem_filter.1 hw).1
  exact ⟨mem_of_mem_splitOnP hw2 hc, not_p_of_mem_splitOnP hw2 hc⟩

/-- Splitting the space-joined list of nonempty space-free words recovers
the words. -/
lemma splitWs_joinSpace :
    ∀ (ws : List (List Char)),
      (∀ w ∈ ws, w ≠ [] ∧ ∀ c ∈ w, isSpaceChar c = false) →
      splitWs (joinSpace ws) = ws := by
  intro ws
  induction ws with
  | nil =>
    intro _
    simp [joinSpace, splitWs, List.splitOnP_nil]
  | cons w ws ih =>
    intro h
    obtain ⟨hw, hwchars⟩ := h w (List.mem_cons_self w ws)
    cases ws with
    | nil =>
      show splitWs w = [w]
      unfold splitWs
      rw [List.splitOnP_eq_single _ _ (fun c hc => by simp [hwchars c hc])]
      simp [hw]
    | cons w2 ws2 =>
      show splitWs (w ++ ' ' :: joinSpace (w2 :: ws2)) = w :: w2 :: ws2
      unfold splitWs
      rw [List.splitOnP_first _ _ (fun c hc => by simp [hwchars c hc]) ' ' (by decide)]
      rw [List.filter_cons, if_pos (by simp [hw])]
      congr 1
      exact ih (fun x hx => h x (List.mem_cons_of_mem w hx))

/-! ## Slice lemmas (`l[:k]` policies) -/

/-- Slicing with a bound at least the length returns the whole list. -/
lemma pySlice_of_length_le {α : Type} (k : Int) (l : List α)
    (h : (l.length : Int) ≤ k) : pySlice k l = l := by
  unfold pySlice
  rw [if_pos (le_trans (by positivity) h)]
  apply List.take_of_length_le
  omega

/-- Slicing with bound zero is empty. -/
lemma pySlice_zero {α : Type} (l : List α) : pySlice 0 l = [] := by
  simp [pySlice]

/-- For negative `k`, `l[:k]` keeps the first `len(l) + k` elements
(clamped at zero). -/
lemma pySlice_length_of_neg {α : Type} (k : Int) (l : List α) (h : k < 0) :
    (pySlice k l).length = ((l.length : Int) + k).toNat := by
  unfold pySlice
  rw [if_neg (by omega), List.length_take]
  omega

/-- The sorted-then-sliced pipeline is sorted by descending score. -/
lemma ranked_pairwise {α β : Type} [LinearOrder β] (score : α → β) (k : Int)
    (l : List α) :
    (pySlice k (pySortDesc score l)).Pairwise (fun a b => score b ≤ score a) :=
  (pySortDesc_pairwise score l).sublist (pySlice_sublist k _)

/-- Stability through sorting and slicing: the ranked elements with any
fixed score form a sublist of the input's elements with that score (same
elements, same relative order, possibly truncated). -/
lemma ranked_filter_sublist {α β : Type} [LinearOrder β] (score : α → β) (k : Int)
    (l : List α) (s : β) :
    List.Sublist
      ((pySlice k (pySortDesc score l)).filter (fun a => decide (score a = s)))
      (l.filter (fun a => decide (score a = s))) := by
  have h1 := (pySlice_sublist k (pySortDesc score l)).filter
    (fun a => decide (score a = s))
  rw [pySortDesc_filter_eq score l _ (fun a b ha hb => by
    simp only [decide_eq_true_eq] at ha hb
    rw [ha, hb])] at h1
  exact h1

/-- The loop bodies of the snippet extractors, written as
filter-map-filter (the shape the spec describes). -/
lemma filterMap_if_decomp {α β : Type} (q : α → Bool) (f : α → β) (r : β → Prop)
    [DecidablePred r] (l : List α) :
    l.filterMap (fun a => if q a then (if r (f a) then some (f a) else none) else none) =
      ((l.filter q).map f).filter (fun b => decide (r b)) := by
  induction l with
  | nil => rfl
  | cons a t ih =>
    rw [List.filterMap_cons, List.filter_cons]
    by_cases hq : q a
    · rw [if_pos hq, if_pos hq]
      by_cases hr : r (f a)
      · rw [if_pos hr]
        simp only [List.map_cons, List.filter_cons, decide_eq_true hr, if_pos, ih]
      · rw [if_neg hr]
        simp only [List.map_cons, List.filter_cons, ih]
        rw [if_neg (by simpa using hr)]
    · rw [if_neg hq, if_neg hq]
      exact ih

/-! ## Supporting lemmas about the matching pipeline -/

/-- Every entry of the scored-matches list carries a cosine-similarity
score. -/
lemma mem_scoredMatches_score {encode : List Char → List ℝ} {job : Job}
    {resumes : List Resume} {m : MatchEntry}
    (hm : m ∈ scoredMatches encode job resumes) :
    ∃ r ∈ resumes,
      m.score = calculate_similarity
        (generate_embeddings encode
          (job.title ++ [' '] ++ job.description ++ [' '] ++ joinSpace job.requirements))
        (r.embeddings.getD []) := by
  unfold scoredMatches at hm
  simp only [List.mem_filterMap] at hm
  obtain ⟨r, hr, hfr⟩ := hm
  by_cases ht : truthyEmb r.embeddings
  · rw [if_pos ht] at hfr
    refine ⟨r, hr, ?_⟩
    cases hfr
    rfl
  · rw [if_neg ht] at hfr
    exact absurd hfr (by simp)

/-- C1, amended.  The claim asserts `0 ≤ score ≤ 1`; the code computes an
unclamped cosine similarity, whose true range is `[-1, 1]` (see the
counterexample).  As amended: `calculate_similarity` always returns a value
in `[-1, 1]`, and every score attached to a match entry by
`match_candidates` lies in `[-1, 1]`. -/
theorem calculate_similarity_and_match_scores_bounded :
    (∀ e1 e2 : List ℝ,
      -1 ≤ calculate_similarity e1 e2 ∧ calculate_similarity e1 e2 ≤ 1) ∧
    ∀ (encode : List Char → List ℝ) (job : Job) (resumes : List Resume) (top_n : Int),
      (match_candidates encode job resumes top_n).Forall
        (fun m => -1 ≤ m.score ∧ m.score ≤ 1) := by
  constructor
  · exact fun e1 e2 => calculate_similarity_mem_Icc e1 e2
  · intro encode job resumes top_n
    rw [List.forall_iff_forall_mem]
    intro m hm
    have hm2 : m ∈ pySortDesc MatchEntry.score (scoredMatches encode job resumes) :=
      (pySlice_sublist _ _).subset hm
    have hm3 : m ∈ scoredMatches encode job resumes := by
      unfold pySortDesc at hm2
      exact List.mem_mergeSort.1 hm2
    obtain ⟨r, _, hscore⟩ := mem_scoredMatches_score hm3
    rw [hscore]
    exact calculate_similarity_mem_Icc _ _

/-- C1, counterexample to the claimed lower bound `0 ≤ score`: the
one-dimensional embeddings `[1]` and `[-1]` have cosine similarity `-1`. -/
theorem calculate_similarity_neg_example : calculate_similarity [1] [-1] < 0 := by
  have h1 : pyNorm [1] = 1 := by
    unfold pyNorm sumSq
    norm_num
  have h2 : pyNorm [-1] = 1 := by
    unfold pyNorm sumSq
    norm_num
  unfold calculate_similarity
  rw [if_neg (by rw [h1, h2]; norm_num), h1, h2]
  unfold dotProduct
  norm_num

/-- C2.  Every resume record built by `upload_resume` has `embeddings =
None`, and `match_candidates` only scores resumes with a truthy
`embeddings` field, so a corpus consisting entirely of uploaded resumes
yields an empty match list for every job and every `top_n`. -/
theorem upload_resume_embeddings_none_and_no_matches :
    (∀ (rid : Nat) (original_filename content : List Char),
      (uploadResumeRecord rid original_filename content).embeddings = none) ∧
    ∀ (encode : List Char → List ℝ) (job : Job)
      (uploads : List (Nat × List Char × List Char)) (top_n : Int),
      match_candidates encode job
        (uploads.map (fun u => uploadResumeRecord u.1 u.2.1 u.2.2)) top_n = [] := by
  constructor
  · intro rid fn content
    rfl
  · intro encode job uploads top_n
    have hscored : scoredMatches encode job
        (uploads.map (fun u => uploadResumeRecord u.1 u.2.1 u.2.2)) = [] := by
      unfold scoredMatches
      rw [List.filterMap_map]
      apply List.filterMap_eq_nil_iff.2
      intro u _
      rfl
    rw [match_candidates, hscored]
    simp [pySortDesc, pySlice]

/-- C3.  In all three ranking paths (`match_candidates`,
`find_similar_documents`, and the `ask_question` resume ranking) the
returned list is sorted by non-increasing score, and the entries holding
any fixed score appear in the same relative order as in the scored input
list (which is built in corpus order): Python's `list.sort` is stable and
`reverse=True` preserves the order of ties. -/
theorem ranking_sorted_and_stable :
    (∀ (encode : List Char → List ℝ) (job : Job) (resumes : List Resume) (top_n : Int),
      (match_candidates encode job resumes top_n).Pairwise
        (fun a b => b.score ≤ a.score) ∧
      ∀ s : ℝ,
        List.Sublist
          ((match_candidates encode job resumes top_n).filter
            (fun m => decide (m.score = s)))
          ((scoredMatches encode job resumes).filter
            (fun m => decide (m.score = s)))) ∧
    (∀ (α : Type) (emb : α → Option (List ℝ)) (q : List ℝ) (docs : List α)
       (top_k : Int),
      (find_similar_documents emb q docs top_k).Pairwise
        (fun a b => b.similarity ≤ a.similarity) ∧
      ∀ s : ℝ,
        List.Sublist
          ((find_similar_documents emb q docs top_k).filter
            (fun d => decide (d.similarity = s)))
          ((simScored emb q docs).filter (fun d => decide (d.similarity = s)))) ∧
    ∀ (query : List Char) (k : Int) (resumes : List Resume),
      (topResumes query k resumes).Pairwise (fun a b => b.score ≤ a.score) ∧
      ∀ s : Nat,
        List.Sublist
          ((topResumes query k resumes).filter (fun e => decide (e.score = s)))
          ((relevantResumes query resumes).filter (fun e => decide (e.score = s))) := by
  refine ⟨fun encode job resumes top_n => ⟨?_, fun s => ?_⟩,
    fun α emb q docs top_k => ⟨?_, fun s => ?_⟩,
    fun query k resumes => ⟨?_, fun s => ?_⟩⟩
  · exact ranked_pairwise MatchEntry.score top_n _
  · exact ranked_filter_sublist MatchEntry.score top_n _ s
  · exact ranked_pairwise ScoredDoc.similarity top_k _
  · exact ranked_filter_sublist ScoredDoc.similarity top_k _ s
  · exact ranked_pairwise RelevantResume.score k _
  · exact ranked_filter_sublist RelevantResume.score k _ s

/-- C5, amended.  The claim's `topK > corpus size` half is right: slicing
with a `top_n` at least the number of scored matches returns the whole
ranked list, with no error possible.  The `topK ≤ 0` half is wrong: Python
`matches[:top_n]` returns the empty list for `top_n = 0` and drops the
last `|top_n|` elements for negative `top_n` (still never an error), so
only `max 0 (n + top_n)` entries (not all `n`) are returned. -/
theorem match_candidates_topk_policy :
    ∀ (encode : List Char → List ℝ) (job : Job) (resumes : List Resume),
      (∀ top_n : Int,
        ((scoredMatches encode job resumes).length : Int) ≤ top_n →
          match_candidates encode job resumes top_n =
            pySortDesc MatchEntry.score (scoredMatches encode job resumes)) ∧
      match_candidates encode job resumes 0 = [] ∧
      ∀ top_n : Int, top_n < 0 →
        (match_candidates encode job resumes top_n).length =
          (((scoredMatches encode job resumes).length : Int) + top_n).toNat := by
  intro encode job resumes
  refine ⟨fun top_n h => ?_, ?_, fun top_n h => ?_⟩
  · unfold match_candidates
    apply pySlice_of_length_le
    unfold pySortDesc
    rw [List.length_mergeSort]
    exact h
  · exact pySlice_zero _
  · unfold match_candidates
    rw [pySlice_length_of_neg _ _ h]
    unfold pySortDesc
    rw [List.length_mergeSort]

/-- C5 witness: with an empty corpus, `top_n = 0` is both `≥` the corpus
size and `≤ 0`, and both amended policies evaluate concretely. -/
theorem match_candidates_topk_policy_witness :
    match_candidates (fun _ => []) ⟨[], [], []⟩ [] 0 =
      pySortDesc MatchEntry.score (scoredMatches (fun _ => []) ⟨[], [], []⟩ []) ∧
    (match_candidates (fun _ => []) ⟨[], [], []⟩ [] (-1)).length = 0 := by
  have h := match_candidates_topk_policy (fun _ => []) ⟨[], [], []⟩ []
  constructor
  · exact h.1 0 (by simp [scoredMatches])
  · have h2 := h.2.2 (-1) (by norm_num)
    rw [h2]
    simp [scoredMatches]

/-- C5 counterexample to the claim as stated: a corpus with one scored
resume and `top_n = 0` returns no matches, not "as many as available". -/
theorem match_candidates_topk_zero_example :
    match_candidates (fun _ => [1]) ⟨[], [], []⟩ [⟨1, [], [], some [1]⟩] 0 = [] ∧
    (scoredMatches (fun _ => [1]) ⟨[], [], []⟩ [⟨1, [], [], some [1]⟩]).length = 1 := by
  constructor
  · exact pySlice_zero _
  · simp [scoredMatches, truthyEmb]

/-- Experience-check items always carry kind `experience_match`. -/
lemma check_experience_match_type {job : Job} {resume : Resume} {item : EvidenceItem}
    (h : item ∈ check_experience_match job resume) : item.type = "experience_match" := by
  unfold check_experience_match at h
  split at h
  · exact absurd h (by simp)
  · split at h
    · exact absurd h (by simp)
    · split at h
      · simp only [List.mem_singleton] at h
        rw [h]
      · exact absurd h (by simp)

/-- Education-check items always carry kind `education_match`. -/
lemma check_education_match_type {job : Job} {resume : Resume} {item : EvidenceItem}
    (h : item ∈ check_education_match job resume) : item.type = "education_match" := by
  unfold check_education_match at h
  simp only [List.mem_filterMap] at h
  obtain ⟨term, _, hf⟩ := h
  split at hf
  · cases hf
    rfl
  · exact absurd hf (by simp)

/-- Skill items come exactly from the requirements whose lowercase form
occurs in the lowercase content. -/
lemma mem_extract_evidence_skill {job : Job} {resume : Resume} {item : EvidenceItem}
    (h : item ∈ extract_evidence_skill job resume) :
    ∃ r ∈ job.requirements,
      hasSub (pyLower r) (pyLower resume.content) = true ∧
      item = ⟨r, find_context (pyLower r) resume.content, "skill_match"⟩ := by
  unfold extract_evidence_skill at h
  simp only [List.mem_filterMap] at h
  obtain ⟨r, hr, hf⟩ := h
  by_cases hs : hasSub (pyLower r) (pyLower resume.content)
  · rw [if_pos hs] at hf
    cases hf
    exact ⟨r, hr, hs, rfl⟩
  · rw [if_neg hs] at hf
    exact absurd hf (by simp)

/-- C4.  For a requirement on the lexical path (verbatim substring, or
neither verbatim nor by a long token), exactly one of "skill_match
evidence" and "missing" holds. -/
theorem evidence_missing_partition (job : Job) (resume : Resume) (req : List Char)
    (hreq : req ∈ job.requirements)
    (hpath : hasSub (pyLower req) (pyLower resume.content) = true ∨
      (hasSub (pyLower req) (pyLower resume.content) = false ∧
        has_similar_term (pyLower req) (pyLower resume.content) = false)) :
    Xor'
      (∃ item ∈ extract_evidence job resume,
        item.type = "skill_match" ∧ item.requirement = req)
      (req ∈ find_missing_requirements job resume) := by
  rcases hpath with hin | ⟨hnin, hnsim⟩
  · left
    constructor
    · refine ⟨⟨req, find_context (pyLower req) resume.content, "skill_match"⟩, ?_, rfl, rfl⟩
      unfold extract_evidence
      apply List.mem_append_left
      apply List.mem_append_left
      unfold extract_evidence_skill
      exact List.mem_filterMap.2 ⟨req, hreq, by rw [if_pos hin]⟩
    · intro hmiss
      rw [find_missing_requirements, List.mem_filter] at hmiss
      have h2 := hmiss.2
      rw [hin] at h2
      exact absurd h2 (by simp)
  · right
    constructor
    · rw [find_missing_requirements, List.mem_filter]
      exact ⟨hreq, by rw [hnin, hnsim]; rfl⟩
    · rintro ⟨item, hitem, htype, hreqeq⟩
      unfold extract_evidence at hitem
      rcases List.mem_append.1 hitem with h1 | h23
      · rcases List.mem_append.1 h1 with hskill | hexp
        · obtain ⟨r, _, hs, hitemeq⟩ := mem_extract_evidence_skill hskill
          have : r = req := by
            rw [hitemeq] at hreqeq
            exact hreqeq
          rw [this] at hs
          exact absurd hs (by rw [hnin]; simp)
        · have := check_experience_match_type hexp
          rw [htype] at this
          exact absurd this (by decide)
      · have := check_education_match_type h23
        rw [htype] at this
        exact absurd this (by decide)

/-- C4 witness: requirements `["Python", "Kubernetes"]` against a resume
containing "Python" verbatim; "Python" is on the verbatim branch of the
lexical path. -/
theorem evidence_missing_partition_witness :
    Xor'
      (∃ item ∈ extract_evidence
          ⟨"t".data, "d".data, ["Python".data, "Kubernetes".data]⟩
          ⟨2, "x".data, "I know Python well".data, none⟩,
        item.type = "skill_match" ∧ item.requirement = "Python".data)
      ("Python".data ∈ find_missing_requirements
        ⟨"t".data, "d".data, ["Python".data, "Kubernetes".data]⟩
        ⟨2, "x".data, "I know Python well".data, none⟩) :=
  evidence_missing_partition
    ⟨"t".data, "d".data, ["Python".data, "Kubernetes".data]⟩
    ⟨2, "x".data, "I know Python well".data, none⟩
    "Python".data (by decide) (Or.inl (by decide))

/-- C6, amended.  A requirement satisfied only through the similar-term
fallback is not listed missing and receives no `skill_match` evidence item
(the per-requirement loop emits nothing for it); the claim's stronger "no
evidence item of any kind" is refuted by the counterexample, where an
education item coincidentally cites the same requirement string. -/
theorem similar_term_not_missing_no_skill_evidence (job : Job) (resume : Resume)
    (req : List Char)
    (hnin : hasSub (pyLower req) (pyLower resume.content) = false)
    (hsim : has_similar_term (pyLower req) (pyLower resume.content) = true) :
    req ∉ find_missing_requirements job resume ∧
      ∀ item ∈ extract_evidence_skill job resume, item.requirement ≠ req := by
  constructor
  · intro hmem
    rw [find_missing_requirements, List.mem_filter] at hmem
    have h2 := hmem.2
    rw [hnin, hsim] at h2
    exact absurd h2 (by simp)
  · intro item hitem heq
    obtain ⟨r, _, hs, hitemeq⟩ := mem_extract_evidence_skill hitem
    rw [hitemeq] at heq
    have : r = req := heq
    rw [this] at hs
    rw [hnin] at hs
    exact absurd hs (by simp)

/-- C6 witness: requirement "machine learning" is not a substring of
"deep learning expert", but its token "learning" (length > 3) is. -/
theorem similar_term_not_missing_no_skill_evidence_witness :
    "machine learning".data ∉
      find_missing_requirements ⟨"t".data, "d".data, ["machine learning".data]⟩
        ⟨1, "r".data, "deep learning expert".data, none⟩ ∧
    ∀ item ∈ extract_evidence_skill ⟨"t".data, "d".data, ["machine learning".data]⟩
        ⟨1, "r".data, "deep learning expert".data, none⟩,
      item.requirement ≠ "machine learning".data :=
  similar_term_not_missing_no_skill_evidence
    ⟨"t".data, "d".data, ["machine learning".data]⟩
    ⟨1, "r".data, "deep learning expert".data, none⟩
    "machine learning".data (by decide) (by decide)

/-- C6 counterexample to "no evidence item of any kind is emitted for it":
the requirement "Education: bachelor" takes the similar-term path (token
"bachelor" occurs), is not missing, yet the education check emits an
evidence item whose requirement field is exactly that string. -/
theorem similar_term_education_evidence_example :
    hasSub (pyLower "Education: bachelor".data)
        (pyLower "completed bachelor studies at MIT".data) = false ∧
    has_similar_term (pyLower "Education: bachelor".data)
        (pyLower "completed bachelor studies at MIT".data) = true ∧
    "Education: bachelor".data ∉
      find_missing_requirements
        ⟨"t".data, "bachelor required".data, ["Education: bachelor".data]⟩
        ⟨1, "r".data, "completed bachelor studies at MIT".data, none⟩ ∧
    ∃ item ∈ extract_evidence
        ⟨"t".data, "bachelor required".data, ["Education: bachelor".data]⟩
        ⟨1, "r".data, "completed bachelor studies at MIT".data, none⟩,
      item.requirement = "Education: bachelor".data := by
  refine ⟨by decide, by decide, by decide, by decide⟩

/-- Folding `re.sub` over patterns none of which matches is the identity. -/
lemma foldl_pySub_eq_of_no_match :
    ∀ (prs : List (RE × List Char)) (s : List Char),
      (∀ pr ∈ prs, pySearch pr.1 s = false) →
      prs.foldl (fun t pr => pySub pr.1 pr.2 t) s = s := by
  intro prs
  induction prs with
  | nil => intro s _; rfl
  | cons pr prs ih =>
    intro s h
    rw [List.foldl_cons,
      pySub_eq_of_pySearch_false pr.1 pr.2 s (h pr (List.mem_cons_self _ _))]
    exact ih s (fun q hq => h q (List.mem_cons_of_mem _ hq))

/-- C7, amended.  Redaction is idempotent on every text whose redacted
form matches none of the PII patterns (for a recruiter it is the identity
and trivially idempotent).  Unconditional idempotence — the claim as
stated — is false: a replacement token can create a word boundary that
lets a pattern match on the second pass (see the counterexample). -/
theorem redact_pii_idempotent_of_no_residual_match (text : List Char) (user : User)
    (h : ∀ pr ∈ piiPatterns, pySearch pr.1 (redact_pii text user) = false) :
    redact_pii (redact_pii text user) user = redact_pii text user := by
  by_cases hr : user.is_recruiter
  · show (if user.is_recruiter then redact_pii text user else _) = redact_pii text user
    rw [if_pos hr]
  · show (if user.is_recruiter then redact_pii text user
      else piiPatterns.foldl (fun t pr => pySub pr.1 pr.2 t) (redact_pii text user)) =
      redact_pii text user
    rw [if_neg hr]
    exact foldl_pySub_eq_of_no_match piiPatterns _ h

/-- C7 witness: `"hi"` contains no PII; its redaction is untouched by all
eight patterns, so double redaction equals single redaction. -/
theorem redact_pii_idempotent_witness :
    redact_pii (redact_pii "hi".data ⟨false⟩) ⟨false⟩ = redact_pii "hi".data ⟨false⟩ :=
  redact_pii_idempotent_of_no_residual_match "hi".data ⟨false⟩ (by decide)

/-- C7 counterexample: in `"123456789linkedin.com/in/a"` the SSN pattern
cannot match on the first pass (no word boundary after the ninth digit),
but after the LinkedIn URL is replaced the `[` of the replacement token
creates the boundary, and the second pass additionally redacts the nine
digits — so redaction is not idempotent for a non-recruiter viewer. -/
theorem redact_pii_not_idempotent_example :
    redact_pii (redact_pii "123456789linkedin.com/in/a".data ⟨false⟩) ⟨false⟩ ≠
      redact_pii "123456789linkedin.com/in/a".data ⟨false⟩ := by decide

/-- Characters of a space-join are the space or characters of the words. -/
lemma mem_joinSpace {c : Char} :
    ∀ (ws : List (List Char)), c ∈ joinSpace ws → c = ' ' ∨ ∃ w ∈ ws, c ∈ w := by
  intro ws
  induction ws with
  | nil => intro h; exact absurd h (by simp [joinSpace])
  | cons w ws ih =>
    intro h
    cases ws with
    | nil =>
      right
      exact ⟨w, List.mem_cons_self w [], h⟩
    | cons w2 ws2 =>
      have h2 : c ∈ w ++ ' ' :: joinSpace (w2 :: ws2) := h
      rcases List.mem_append.1 h2 with h3 | h3
      · exact Or.inr ⟨w, List.mem_cons_self w _, h3⟩
      · rcases List.mem_cons.1 h3 with h4 | h4
        · exact Or.inl h4
        · rcases ih h4 with h5 | ⟨w3, hw3, hc3⟩
          · exact Or.inl h5
          · exact Or.inr ⟨w3, List.mem_cons_of_mem w hw3, hc3⟩

/-- The second cleaning step deletes exactly the characters outside the
kept class. -/
lemma pySub_nonKeep_eq_filter (s : List Char) :
    pySub nonKeepRE [] s = s.filter keepChar := by
  unfold pySub nonKeepRE
  rw [pySub_cls_nil_eq_filter _ (s.length + 1) none s (Nat.lt_succ_self _)]
  apply List.filter_congr
  intro c _
  simp

/-- C8, amended.  `_clean_text` performs, in order: whitespace-run
collapse, character stripping, lowercasing, and short-token dropping (the
definition of `clean_text` is that exact sequence).  The claim's allowed
alphabet is wrong on one point: the stripping step keeps Python's `\w`,
which includes the underscore, so the output alphabet is word characters
(alphanumerics and `_`), whitespace, and `.,!?;:-` — and every surviving
token has length > 2. -/
theorem clean_text_alphabet (text : List Char) :
    (clean_text text).Forall (fun c => keepChar c = true) ∧
    (splitWs (clean_text text)).Forall (fun w => 2 < w.length) := by
  have hwords : ∀ w ∈ (splitWs (pyLower (pySub nonKeepRE [] (pySub wsRunRE [' '] text)))).filter
      (fun word => 2 < word.length),
      (w ≠ [] ∧ ∀ c ∈ w, isSpaceChar c = false) ∧ 2 < w.length ∧
        ∀ c ∈ w, keepChar c = true := by
    intro w hw
    have hlen : 2 < w.length := by
      have := (List.mem_filter.1 hw).2
      simpa using this
    have hw2 := (List.mem_filter.1 hw).1
    refine ⟨⟨by intro hnil; rw [hnil] at hlen; simp at hlen, ?_⟩, hlen, ?_⟩
    · intro c hc
      exact (mem_splitWs_subset hw2 hc).2
    · intro c hc
      have hc2 : c ∈ pyLower (pySub nonKeepRE [] (pySub wsRunRE [' '] text)) :=
        (mem_splitWs_subset hw2 hc).1
      unfold pyLower at hc2
      obtain ⟨d, hd, hdc⟩ := List.mem_map.1 hc2
      rw [pySub_nonKeep_eq_filter] at hd
      have hdk : keepChar d = true := (List.mem_filter.1 hd).2
      rw [← hdc]
      exact keepChar_toLower hdk
  constructor
  · rw [List.forall_iff_forall_mem]
    intro c hc
    have hc2 : c ∈ joinSpace ((splitWs (pyLower (pySub nonKeepRE []
        (pySub wsRunRE [' '] text)))).filter (fun word => 2 < word.length)) := hc
    rcases mem_joinSpace _ hc2 with h | ⟨w, hw, hcw⟩
    · rw [h]
      rfl
    · exact ((hwords w hw).2.2) c hcw
  · rw [List.forall_iff_forall_mem]
    intro w hw
    have hsplit : splitWs (clean_text text) =
        (splitWs (pyLower (pySub nonKeepRE [] (pySub wsRunRE [' '] text)))).filter
          (fun word => 2 < word.length) := by
      unfold clean_text
      exact splitWs_joinSpace _ (fun x hx => (hwords x hx).1)
    rw [hsplit] at hw
    exact (hwords w hw).2.1

/-- The output alphabet asserted by the spec, read literally:
alphanumerics, whitespace and `.,!?;:-` — without the underscore. -/
def claimedCleanChar (c : Char) : Bool :=
  c.isAlphanum || isSpaceChar c ||
    c = '.' || c = ',' || c = '!' || c = '?' || c = ';' || c = ':' || c = '-'

/-- C8 counterexample: `_clean_text` keeps `\w`, which includes `_`, so
the underscore survives although it is outside the claimed alphabet. -/
theorem clean_text_underscore_example :
    '_' ∈ clean_text "ab_cd".data ∧ claimedCleanChar '_' = false := by decide

/-- The snippet rule as the spec words it, amended to the code's strict
bound: the query-relevant sentences, stripped and truncated to 200
characters, kept when strictly longer than 50, first three returned. -/
def claimedSnippets (query content : List Char) : List (List Char) :=
  ((((splitPunct content).filter (fun sentence =>
      (splitWs (pyLower query)).any (fun word => hasSub word (pyLower sentence)))).map
    (fun sentence => (pyStrip sentence).take 200)).filter
      (fun snippet => decide (50 < snippet.length))).take 3

/-- The snippet rule exactly as the claim states it: kept when at least 50
characters long ("a snippet of exactly 50 characters is kept"), and
returning all such sentences. -/
def claimedSnippetsGe (query content : List Char) : List (List Char) :=
  (((splitPunct content).filter (fun sentence =>
      (splitWs (pyLower query)).any (fun word => hasSub word (pyLower sentence)))).map
    (fun sentence => (pyStrip sentence).take 200)).filter
      (fun snippet => decide (50 ≤ snippet.length))

/-- C9, amended.  The extractor returns the first three query-relevant
sentences, stripped and truncated to 200 characters — but a snippet is
kept only when *strictly longer* than 50 characters (`len(snippet) > 50`),
so a 50-character snippet is dropped; and the output is capped at three
snippets, not "exactly those sentences". -/
theorem extract_snippets_eq_claimed (query content : List Char) :
    extract_snippets query content = claimedSnippets query content := by
  unfold extract_snippets claimedSnippets
  exact congrArg (fun l => List.take 3 l)
    (filterMap_if_decomp
      (fun sentence =>
        (splitWs (pyLower query)).any (fun word => hasSub word (pyLower sentence)))
      (fun sentence => (pyStrip sentence).take 200)
      (fun snippet => 50 < snippet.length) (splitPunct content))

/-- C9 counterexample: a single 50-character sentence containing the query
word.  The claim (`≥ 50`) keeps it; the code (`> 50`) drops it. -/
theorem extract_snippets_fifty_example :
    claimedSnippetsGe "alpha".data
        "alpha bbbb cccc dddd eeee ffff gggg hhhh iiii jjjj".data ≠
      extract_snippets "alpha".data
        "alpha bbbb cccc dddd eeee ffff gggg hhhh iiii jjjj".data := by decide

/-- Entries of the relevant-resumes list have a positive score bounded by
the query word count. -/
lemma mem_relevantResumes {query : List Char} {resumes : List Resume}
    {item : RelevantResume} (h : item ∈ relevantResumes query resumes) :
    0 < item.score ∧ item.score ≤ (splitWs (pyLower query)).length := by
  unfold relevantResumes at h
  simp only [List.mem_filterMap] at h
  obtain ⟨r, _, hf⟩ := h
  by_cases hpos : 0 < query_score (splitWs (pyLower query)) r.content
  · rw [if_pos hpos] at hf
    cases hf
    exact ⟨hpos, List.length_filter_le _ _⟩
  · rw [if_neg hpos] at hf
    exact absurd hf (by simp)

/-- C10.  Every reported source has a well-defined normalized score: the
query then has at least one word (so `score / len(query_words)` never
divides by zero), and the normalized score lies in `(0, 1]`. -/
theorem ask_sources_scores_positive_normalized (query : List Char) (k : Int)
    (resumes : List Resume) :
    (ask_sources query k resumes).Forall (fun src =>
      0 < (splitWs (pyLower query)).length ∧
      0 < src.similarity_score ∧ src.similarity_score ≤ 1) := by
  rw [List.forall_iff_forall_mem]
  intro src hsrc
  unfold ask_sources at hsrc
  simp only [List.mem_map] at hsrc
  obtain ⟨item, hitem, hsrceq⟩ := hsrc
  have hitem2 : item ∈ relevantResumes query resumes := by
    unfold topResumes at hitem
    have h2 := (pySlice_sublist _ _).subset hitem
    unfold pySortDesc at h2
    exact List.mem_mergeSort.1 h2
  obtain ⟨hpos, hle⟩ := mem_relevantResumes hitem2
  have hqw : 0 < (splitWs (pyLower query)).length := lt_of_lt_of_le hpos hle
  cases hsrceq
  refine ⟨hqw, ?_, ?_⟩
  · apply div_pos
    · exact_mod_cast hpos
    · exact_mod_cast hqw
  · rw [div_le_one (by exact_mod_cast hqw)]
    exact_mod_cast hle
